/-
Verification of the ETF fund-flows pipeline.

The development shallowly embeds the three scripts of the repository:
  * scripts/scrape_ishares.py  (shares-history store, CSV metadata parsers)
  * scripts/backfill_ishares.py (historical backfill over business days)
  * scripts/fetch_flows.py     (merge-and-fill, flow derivation, report output)

Dates handled by the store and the parsers are ISO `String`s, as in the
scripts; dates of the price/shares time series are modelled as integers
(one per calendar day), closes as rationals and share counts as integers.
-/
import Mathlib

/-! ## Shares history store (scrape_ishares.py) -/

/-- The in-memory history table of `scrape_ishares.py`: a Python dict keyed by
`(date, ticker)` with integer shares values, modelled as an association list
in insertion order with unique keys. -/
abbrev Hist : Type := List ((String × String) × Int)

/-- Dict lookup: the value stored under a `(date, ticker)` key. -/
def histLookup (h : Hist) (k : String × String) : Option Int :=
  (h.find? (fun e => decide (e.1 = k))).map (fun e => e.2)

/-- Dict assignment `history[key] = value`: an existing key keeps its position
and gets the new value, a fresh key is appended at the end. -/
def histInsert (h : Hist) (k : String × String) (v : Int) : Hist :=
  match h with
  | [] => [(k, v)]
  | e :: t => if e.1 = k then (k, v) :: t else e :: histInsert t k v

/-- The keys of the history, in insertion order. -/
def histKeys (h : Hist) : List (String × String) :=
  h.map (fun e => e.1)

/-- The history invariant: at most one entry per `(date, ticker)` key. -/
def keysNodup (h : Hist) : Prop :=
  (histKeys h).Nodup

/-- Outcome reported by the scrape upsert (the three log branches of
`scrape_all`). -/
inductive UpsertResult : Type
  | unchanged : UpsertResult
  | updated : UpsertResult
  | new : UpsertResult
deriving DecidableEq

/-- The `(date, symbol)` upsert step of `scrape_all` (scrape_ishares.py,
lines 196-206): an existing key with the same value is left alone and
reported unchanged; an existing key with a different value is overwritten
and reported updated; a fresh key is inserted and reported new. -/
def upsert (h : Hist) (date symbol : String) (shares : Int) : Hist × UpsertResult :=
  match histLookup h (date, symbol) with
  | some existing =>
    if existing = shares then (h, UpsertResult.unchanged)
    else (histInsert h (date, symbol) shares, UpsertResult.updated)
  | none => (histInsert h (date, symbol) shares, UpsertResult.new)

/-- Order on `(date, ticker)` keys used by `save_history`: Python tuple
comparison, i.e. lexicographic on the two strings. -/
def keyLe (a b : String × String) : Prop :=
  a.1 < b.1 ∨ (a.1 = b.1 ∧ a.2 ≤ b.2)

instance : DecidableRel keyLe := by
  intro a b
  unfold keyLe
  infer_instance

/-- The key order lifted to history entries, as in
`sorted(history.items(), key=lambda x: (x[0][0], x[0][1]))`. -/
def entryLe (a b : (String × String) × Int) : Prop :=
  keyLe a.1 b.1

instance : DecidableRel entryLe := by
  intro a b
  unfold entryLe
  infer_instance

instance : IsTotal (String × String) keyLe := by
  constructor
  intro a b
  rcases lt_trichotomy a.1 b.1 with h | h | h
  · exact Or.inl (Or.inl h)
  · rcases le_total a.2 b.2 with h2 | h2
    · exact Or.inl (Or.inr ⟨h, h2⟩)
    · exact Or.inr (Or.inr ⟨h.symm, h2⟩)
  · exact Or.inr (Or.inl h)

instance : IsTrans (String × String) keyLe := by
  constructor
  intro a b c hab hbc
  rcases hab with h1 | ⟨e1, l1⟩
  · rcases hbc with h2 | ⟨e2, l2⟩
    · exact Or.inl (h1.trans h2)
    · exact Or.inl (e2 ▸ h1)
  · rcases hbc with h2 | ⟨e2, l2⟩
    · exact Or.inl (e1 ▸ h2)
    · exact Or.inr ⟨e1.trans e2, l1.trans l2⟩

instance : IsTotal ((String × String) × Int) entryLe := by
  constructor
  intro a b
  exact IsTotal.total (r := keyLe) a.1 b.1

instance : IsTrans ((String × String) × Int) entryLe := by
  constructor
  intro a b c hab hbc
  exact IsTrans.trans (r := keyLe) a.1 b.1 c.1 hab hbc

/-- The row list written by `save_history` (scrape_ishares.py, lines 165-176):
all entries sorted by `(date, ticker)`, one `(date, ticker, shares)` row
each. -/
def save_history (h : Hist) : List (String × String × Int) :=
  (List.insertionSort entryLe h).map (fun e => (e.1.1, e.1.2, e.2))

/-- Order on written CSV rows by their `(date, ticker)` columns. -/
def rowLe (a b : String × String × Int) : Prop :=
  a.1 < b.1 ∨ (a.1 = b.1 ∧ a.2.1 ≤ b.2.1)

/-! ## Python string primitives

The scrapers manipulate Python `str` values.  Text is modelled as `List Char`;
the primitives below reproduce the Python semantics of the exact methods the
scripts use (`split`, `replace`, `strip`, `lstrip`, `rstrip`, `lower`,
`startswith`, `in`). -/

/-- Characters stripped by Python `str.strip()` (ASCII whitespace). -/
def pyWsChars : List Char := [' ', '\t', '\n', '\r', '\x0b', '\x0c']

/-- Python `str.strip(set)`: drop characters of `set` from both ends. -/
def pyStripSet (s : List Char) (set : List Char) : List Char :=
  ((s.dropWhile (fun c => set.contains c)).reverse.dropWhile
    (fun c => set.contains c)).reverse

/-- Python `str.strip()`. -/
def pyStrip (s : List Char) : List Char :=
  pyStripSet s pyWsChars

/-- The byte-order-mark character U+FEFF. -/
def bomChar : Char := Char.ofNat 0xFEFF

/-- Python stripping of leading U+FEFF marks, `str.lstrip`: drop leading byte-order marks. -/
def pyLStripBOM (s : List Char) : List Char :=
  s.dropWhile (fun c => c = bomChar)

/-- Python `str.rstrip(",")`. -/
def pyRStripComma (s : List Char) : List Char :=
  (s.reverse.dropWhile (fun c => c = ',')).reverse

/-- ASCII lowercasing, as Python `str.lower()` acts on the ASCII metadata
lines at hand. -/
def pyLower (s : List Char) : List Char :=
  s.map (fun c => if c.isUpper then Char.ofNat (c.toNat + 32) else c)

/-- Break a string at the leftmost occurrence of the separator: the part
before it and the part after it, or `none` when the separator does not
occur. -/
def breakAtSep (sep : List Char) (s : List Char) : Option (List Char × List Char) :=
  match s with
  | [] => none
  | c :: rest =>
    if sep.isPrefixOf (c :: rest) then some ([], (c :: rest).drop sep.length)
    else
      match breakAtSep sep rest with
      | some (a, b) => some (c :: a, b)
      | none => none

/-- Worker for `pySplit`: peel off segments at leftmost separator
occurrences; each step consumes at least one character, so a fuel of the
input length suffices. -/
def pySplitFuel (sep : List Char) : Nat → List Char → List (List Char)
  | 0, s => [s]
  | fuel + 1, s =>
    match breakAtSep sep s with
    | none => [s]
    | some (a, b) => a :: pySplitFuel sep fuel b

/-- Python `str.split(sep)` for a non-empty separator: all segments between
non-overlapping leftmost occurrences of `sep`, empty segments kept. -/
def pySplit (s sep : List Char) : List (List Char) :=
  if sep.isEmpty then [s] else pySplitFuel sep (s.length + 1) s

/-- Python `sep.join(parts)`. -/
def pyJoin (sep : List Char) (parts : List (List Char)) : List Char :=
  List.intercalate sep parts

/-- Python `str.split(sep, 1)`: split at the first occurrence only. -/
def pySplit1 (s sep : List Char) : List (List Char) :=
  match pySplit s sep with
  | [] => []
  | a :: rest => if rest.isEmpty then [a] else [a, pyJoin sep rest]

/-- Python `str.replace(old, new)` for non-empty `old`: rebuilt from the
split, which removes exactly the non-overlapping leftmost occurrences. -/
def pyReplace (s old new : List Char) : List Char :=
  pyJoin new (pySplit s old)

/-- Python `sub in s`: contiguous substring containment. -/
def pyContains (s sub : List Char) : Bool :=
  match s with
  | [] => sub.isEmpty
  | _ :: rest => sub.isPrefixOf s || pyContains rest sub

/-- Numeric value of a digit run. -/
def digitsVal (s : List Char) : Nat :=
  s.foldl (fun a c => a * 10 + (c.toNat - 48)) 0

/-- Python `int(float(s))` restricted to plain decimal numerals: optional
surrounding whitespace, optional sign, digits with at most one decimal
point and at least one digit; `int` truncates toward zero, so the value is
the signed integer part.  (Exponent, underscore, infinity and NaN forms of
the Python float grammar do not occur in the provider exports and are
rejected here.) -/
def pyIntFloat (s : List Char) : Option Int :=
  let t := pyStrip s
  let (sign, u) : Int × List Char :=
    match t with
    | '-' :: r => (-1, r)
    | '+' :: r => (1, r)
    | _ => (1, t)
  match pySplit u ['.'] with
  | [ip] =>
    if ip.length ≠ 0 ∧ ip.all (fun c => c.isDigit) then
      some (sign * (digitsVal ip : Int))
    else none
  | [ip, fp] =>
    if ip.length + fp.length ≠ 0 ∧ ip.all (fun c => c.isDigit) ∧
        fp.all (fun c => c.isDigit) then
      some (sign * (digitsVal ip : Int))
    else none
  | _ => none

/-! ## Python strptime for the format used by parse_holdings_date -/

/-- Lowercased three-letter month abbreviations recognized by `%b`. -/
def monthAbbrevs : List (List Char) :=
  [['j', 'a', 'n'], ['f', 'e', 'b'], ['m', 'a', 'r'], ['a', 'p', 'r'],
   ['m', 'a', 'y'], ['j', 'u', 'n'], ['j', 'u', 'l'], ['a', 'u', 'g'],
   ['s', 'e', 'p'], ['o', 'c', 't'], ['n', 'o', 'v'], ['d', 'e', 'c']]

/-- Match `%b`: a case-insensitive three-letter month abbreviation; returns
the month number (1-12) and the rest of the input. -/
def matchMonthAbbrev (s : List Char) : Option (Nat × List Char) :=
  match monthAbbrevs.findIdx? (fun a => a == pyLower (s.take 3)) with
  | some i => if s.length < 3 then none else some (i + 1, s.drop 3)
  | none => none

/-- Match one or more whitespace characters (a literal blank in a strptime
format). -/
def matchWs1 (s : List Char) : Option (List Char) :=
  match s with
  | c :: rest =>
    if pyWsChars.contains c then some (rest.dropWhile (fun d => pyWsChars.contains d))
    else none
  | [] => none

/-- Match `%d`: one or two digits forming a day 1-31, two digits preferred
(the regex `3[01]|[12]\d|0[1-9]|[1-9]` of CPython strptime). -/
def matchDay (s : List Char) : Option (Nat × List Char) :=
  match s with
  | a :: b :: rest =>
    if a.isDigit ∧ b.isDigit ∧ 1 ≤ digitsVal [a, b] ∧ digitsVal [a, b] ≤ 31 then
      some (digitsVal [a, b], rest)
    else if a.isDigit ∧ 1 ≤ digitsVal [a] then some (digitsVal [a], b :: rest)
    else none
  | [a] => if a.isDigit ∧ 1 ≤ digitsVal [a] then some (digitsVal [a], []) else none
  | [] => none

/-- Match a literal character. -/
def matchLit (c : Char) (s : List Char) : Option (List Char) :=
  match s with
  | d :: rest => if d = c then some rest else none
  | [] => none

/-- Match `%Y`: exactly four digits. -/
def matchYear4 (s : List Char) : Option (Nat × List Char) :=
  if s.length < 4 then none
  else if (s.take 4).all (fun c => c.isDigit) then some (digitsVal (s.take 4), s.drop 4)
  else none

/-- Whether a year is a Gregorian leap year. -/
def isLeapYear (y : Nat) : Bool :=
  decide (y % 4 = 0 ∧ (y % 100 ≠ 0 ∨ y % 400 = 0))

/-- Days in a month, used by the datetime constructor's validation. -/
def daysInMonth (y m : Nat) : Nat :=
  if m = 2 then (if isLeapYear y then 29 else 28)
  else if m = 4 ∨ m = 6 ∨ m = 9 ∨ m = 11 then 30
  else 31

/-- A decimal digit character. -/
def digitChar (n : Nat) : Char :=
  Char.ofNat (48 + n % 10)

/-- Two-digit zero-padded field of `%m` / `%d` output. -/
def pad2 (n : Nat) : List Char :=
  [digitChar (n / 10), digitChar n]

/-- Four-digit zero-padded field of `%Y` output. -/
def pad4 (n : Nat) : List Char :=
  [digitChar (n / 1000), digitChar (n / 100), digitChar (n / 10), digitChar n]

/-- The `YYYY-MM-DD` rendering produced by `strftime("%Y-%m-%d")`. -/
def fmtDate (y m d : Nat) : List Char :=
  pad4 y ++ ['-'] ++ pad2 m ++ ['-'] ++ pad2 d

/-- Python `datetime.strptime(s, "%b %d, %Y")` followed by
`strftime("%Y-%m-%d")`: month abbreviation, whitespace, day, comma,
whitespace, four-digit year, nothing else; the day must exist in the
month. -/
def pyStrptimeBdY (s : List Char) : Option (List Char) := do
  let (m, r1) ← matchMonthAbbrev s
  let r2 ← matchWs1 r1
  let (d, r3) ← matchDay r2
  let r4 ← matchLit ',' r3
  let r5 ← matchWs1 r4
  let (y, r6) ← matchYear4 r5
  if r6.isEmpty ∧ 1 ≤ y ∧ d ≤ daysInMonth y m then pure (fmtDate y m d) else none

/-! ## CSV metadata parsers (scrape_ishares.py, lines 45-111) -/

/-- Lowercased key located by `parse_shares_outstanding`. -/
def sharesKeyLower : List Char := "shares outstanding".toList

/-- Lowercased key located by `parse_holdings_date`. -/
def dateKeyLower : List Char := "fund holdings as of".toList

/-- The literal separator of the title-case fallback split. -/
def soSepTitle : List Char := "Shares Outstanding,".toList

/-- The literal separator of the lower-case fallback split. -/
def soSepLower : List Char := "shares outstanding,".toList

/-- Per-line preprocessing common to both parsers: `line.strip()` followed
by stripping leading U+FEFF byte-order marks. -/
def cleanLine (l : List Char) : List Char :=
  pyLStripBOM (pyStrip l)

/-- Whether a line is recognized as the shares-outstanding metadata line. -/
def isSharesMetaLine (l : List Char) : Bool :=
  sharesKeyLower.isPrefixOf (pyLower (cleanLine l))

/-- Whether a line is recognized as the as-of-date metadata line. -/
def isDateMetaLine (l : List Char) : Bool :=
  dateKeyLower.isPrefixOf (pyLower (cleanLine l))

/-- The loop body of `parse_shares_outstanding` on one line: locate the key
case-insensitively, take the text after the first comma, drop quotes and
commas and parse `int(float(.))`; on failure, retry on everything after the
literal `Shares Outstanding,` (then `shares outstanding,`). -/
def trySharesLine (l0 : List Char) : Option Int :=
  let line := cleanLine l0
  if isSharesMetaLine l0 then
    let parts := pySplit1 line [',']
    let first : Option Int :=
      if 2 ≤ parts.length then
        pyIntFloat (pyStrip (pyReplace (pyReplace (parts.getD 1 []) ['"'] []) [','] []))
      else none
    match first with
    | some v => some v
    | none =>
      let raw1 := if pyContains line soSepTitle then (pySplit line soSepTitle).getLastD []
        else []
      let raw2 := if raw1.isEmpty then
          (if pyContains line soSepLower then (pySplit line soSepLower).getLastD [] else [])
        else raw1
      let raw3 := pyStrip (pyReplace (pyReplace raw2 ['"'] []) [','] [])
      if raw3.isEmpty then none else pyIntFloat raw3
  else none

/-- The `for line in text.split("\n")[:10]` loop of
`parse_shares_outstanding`: first line that yields a value wins. -/
def parseSharesLines (lines : List (List Char)) : Option Int :=
  match lines with
  | [] => none
  | l :: ls =>
    match trySharesLine l with
    | some v => some v
    | none => parseSharesLines ls

/-- The loop body of `parse_holdings_date` on one line: locate the key
case-insensitively, take the text after the first comma, drop quotes,
strip a trailing comma and parse `"%b %d, %Y"`; on failure, retry on the
rejoined text after the first comma of a full comma split. -/
def tryDateLine (l0 : List Char) : Option (List Char) :=
  let line := cleanLine l0
  if isDateMetaLine l0 then
    let raw := pySplit1 line [',']
    if 2 ≤ raw.length then
      let ds := pyStrip (pyRStripComma (pyStrip (pyReplace (raw.getD 1 []) ['"'] [])))
      match pyStrptimeBdY ds with
      | some r => some r
      | none =>
        let allParts := pySplit line [',']
        let ds2 := pyStrip (pyReplace (pyJoin [','] (allParts.drop 1)) ['"'] [])
        pyStrptimeBdY ds2
    else none
  else none

/-- The `for line in text.split("\n")[:10]` loop of `parse_holdings_date`. -/
def parseDateLines (lines : List (List Char)) : Option (List Char) :=
  match lines with
  | [] => none
  | l :: ls =>
    match tryDateLine l with
    | some r => some r
    | none => parseDateLines ls

/-- `parse_shares_outstanding` (scrape_ishares.py, lines 45-79): scan the
first ten lines of the export for the shares-outstanding metadata line. -/
def parse_shares_outstanding (text : String) : Option Int :=
  parseSharesLines ((pySplit text.toList ['\n']).take 10)

/-- `parse_holdings_date` (scrape_ishares.py, lines 82-111): scan the first
ten lines of the export for the as-of-date metadata line; the result is in
`YYYY-MM-DD` form. -/
def parse_holdings_date (text : String) : Option String :=
  (parseDateLines ((pySplit text.toList ['\n']).take 10)).map (fun l => String.mk l)

/-- Optional leading byte-order mark. -/
def bomPref (b : Bool) : List Char :=
  if b then [bomChar] else []

/-- Case variants of the shares-outstanding metadata line of the provider
export, with quoting, thousands separators and a decimal point. -/
def sharesLineVariants : List (List Char) :=
  ["Shares Outstanding,\"116,000,000.00\"".toList,
   "SHARES OUTSTANDING,\"116,000,000.00\"".toList,
   "shares outstanding,\"116,000,000.00\"".toList]

/-- Case variants of the as-of-date metadata line of the provider export. -/
def dateLineVariants : List (List Char) :=
  ["Fund Holdings as of,\"Feb 25, 2026\"".toList,
   "FUND HOLDINGS AS OF,\"Feb 25, 2026\"".toList,
   "fund holdings as of,\"Feb 25, 2026\"".toList]

/-- A full provider export header in the shape documented in the source
(docstring of `parse_shares_outstanding`), with a byte-order mark. -/
def exampleHeaderText : String :=
  "\uFEFFiShares MSCI South Korea ETF\nFund Holdings as of,\"Feb 25, 2026\"\nInception Date,\"May 09, 2000\"\nShares Outstanding,\"116,000,000.00\"\nTicker,Name,Sector"

/-! ## Historical backfill (backfill_ishares.py, lines 39-106) -/

/-- The per-run skip/add counters of `backfill_ticker`. -/
structure BackfillCounters where
  added : Nat
  skippedExisting : Nat
  skippedNoData : Nat
  skippedDateMismatch : Nat
deriving DecidableEq

/-- One date iteration of the `backfill_ticker` loop.  `fetch` maps a
requested ISO date to the provider's response text (`none` models a failed
request).  A date already in the history is skipped without consulting
`fetch`; unparsable responses count as no-data; a parsed response whose
as-of date differs from the requested date is discarded and counted as a
date mismatch; otherwise the observation is stored and counted as added. -/
def backfillStep (symbol : String) (fetch : String → Option String)
    (st : Hist × BackfillCounters) (isoDate : String) : Hist × BackfillCounters :=
  if (histLookup st.1 (isoDate, symbol)).isSome then
    (st.1, { st.2 with skippedExisting := st.2.skippedExisting + 1 })
  else
    match fetch isoDate with
    | none => st
    | some text =>
      match parse_holdings_date text, parse_shares_outstanding text with
      | some returnedDate, some shares =>
        if returnedDate ≠ isoDate then
          (st.1, { st.2 with skippedDateMismatch := st.2.skippedDateMismatch + 1 })
        else
          (histInsert st.1 (returnedDate, symbol) shares,
            { st.2 with added := st.2.added + 1 })
      | some _, none => (st.1, { st.2 with skippedNoData := st.2.skippedNoData + 1 })
      | none, _ => (st.1, { st.2 with skippedNoData := st.2.skippedNoData + 1 })

/-- `backfill_ticker` over a list of requested ISO dates (the loop of
backfill_ishares.py, lines 60-103). -/
def backfill_ticker (symbol : String) (fetch : String → Option String)
    (dates : List String) (history : Hist) : Hist × BackfillCounters :=
  dates.foldl (backfillStep symbol fetch) (history, ⟨0, 0, 0, 0⟩)

/-! ## Series merge and fill (fetch_flows.py, lines 100-104) -/

/-- A price observation `(date, close)`. -/
abbrev PriceRow : Type := Int × Rat

/-- A shares observation `(date, shares_outstanding)`. -/
abbrev ShareRow : Type := Int × Int

/-- A merged row `(date, close, shares)`. -/
abbrev MergedRow : Type := Int × Rat × Int

/-- Exact-date alignment of pandas column assignment
`df["shares"] = shares`: the shares value at precisely this index label, if
any. -/
def lookupShares (shares : List ShareRow) (d : Int) : Option Int :=
  (shares.find? (fun s => decide (s.1 = d))).map (fun s => s.2)

/-- The two-column frame after `df["shares"] = shares`: one row per price
date, shares present only where the shares series has that exact date. -/
def alignPrices (prices : List PriceRow) (shares : List ShareRow) :
    List (Int × Rat × Option Int) :=
  prices.map (fun p => (p.1, p.2, lookupShares shares p.1))

/-- `df["shares"].ffill()`: carry the last non-null shares value forward. -/
def ffillCol (carry : Option Int) (rows : List (Int × Rat × Option Int)) :
    List (Int × Rat × Option Int) :=
  match rows with
  | [] => []
  | r :: t =>
    match r.2.2 with
    | some v => (r.1, r.2.1, some v) :: ffillCol (some v) t
    | none => (r.1, r.2.1, carry) :: ffillCol carry t

/-- `df.dropna(subset=["shares"])`: keep only rows with a shares value. -/
def dropnaShares (rows : List (Int × Rat × Option Int)) : List MergedRow :=
  rows.filterMap (fun r => r.2.2.map (fun v => (r.1, r.2.1, v)))

/-- Date order on merged rows, for `df.sort_index()`. -/
def dateLe (a b : MergedRow) : Prop :=
  a.1 ≤ b.1

instance : DecidableRel dateLe := by
  intro a b
  unfold dateLe
  infer_instance

instance : IsTotal MergedRow dateLe := by
  constructor
  intro a b
  exact le_total a.1 b.1

instance : IsTrans MergedRow dateLe := by
  constructor
  intro a b c hab hbc
  exact le_trans hab hbc

/-- The merge-and-fill stage (fetch_flows.py, lines 100-104): align the
shares series onto the price index, forward-fill, drop rows with no shares
value, sort by date. -/
def merge (prices : List PriceRow) (shares : List ShareRow) : List MergedRow :=
  List.insertionSort dateLe (dropnaShares (ffillCol none (alignPrices prices shares)))

/-- Fused align-ffill-dropna recursion, used to reason about `merge` (the
equivalence with the staged pipeline is `dropna_ffill_eq_mergeAux`). -/
def mergeAux (shares : List ShareRow) (carry : Option Int)
    (prices : List PriceRow) : List MergedRow :=
  match prices with
  | [] => []
  | p :: ps =>
    match lookupShares shares p.1 with
    | some v => (p.1, p.2, v) :: mergeAux shares (some v) ps
    | none =>
      match carry with
      | some v => (p.1, p.2, v) :: mergeAux shares (some v) ps
      | none => mergeAux shares none ps

/-- The most recent observation of `obs` at or before `d` (last observation
carried forward), the reading used by the specification. -/
def locfShares (obs : List ShareRow) (d : Int) : Option Int :=
  ((obs.filter (fun s => decide (s.1 ≤ d))).getLast?).map (fun s => s.2)

/-- The dates of a price series. -/
def priceDates (prices : List PriceRow) : List Int :=
  prices.map (fun p => p.1)

/-- The shares observations whose dates occur in the price index (the only
observations pandas alignment retains). -/
def alignedShares (prices : List PriceRow) (shares : List ShareRow) :
    List ShareRow :=
  shares.filter (fun s => decide (s.1 ∈ priceDates prices))

/-- Modelled from the spec's merge contract, amended to the observations the
alignment retains: each price date whose last aligned observation exists
becomes a row carrying that observation's value. -/
def locfMerge (prices : List PriceRow) (shares : List ShareRow) : List MergedRow :=
  prices.filterMap
    (fun p => (locfShares (alignedShares prices shares) p.1).map (fun v => (p.1, p.2, v)))

/-! ## Flow derivation (fetch_flows.py, lines 107-161) -/

/-- Row access with a junk default, for stating positional facts. -/
def rowD (ms : List MergedRow) (i : Nat) : MergedRow :=
  (ms.get? i).getD (0, 0, 0)

/-- The value of a defined `daily_flow` entry: shares change from the
previous row times the close of the current row. -/
def flowVal (ms : List MergedRow) (i : Nat) : Rat :=
  (((rowD ms i).2.2 - (rowD ms (i - 1)).2.2 : Int) : Rat) * (rowD ms i).2.1

/-- The `daily_flow` column: `df["shares"].diff() * df["close"]` at
position `i`; absent at position 0 and beyond the frame. -/
def dailyFlow (ms : List MergedRow) (i : Nat) : Option Rat :=
  match i with
  | 0 => none
  | j + 1 =>
    match ms.get? (j + 1), ms.get? j with
    | some r, some p => some (((r.2.2 - p.2.2 : Int) : Rat) * r.2.1)
    | some _, none => none
    | none, _ => none

/-- A rolling-sum column `df["daily_flow"].rolling(w, min_periods=1).sum()`
at position `i`: the sum of the defined values among the trailing `w`
positions, absent when there are none. -/
def rollingFlow (w : Nat) (ms : List MergedRow) (i : Nat) : Option Rat :=
  let vals := ((List.range (i + 1)).drop (i + 1 - w)).filterMap (dailyFlow ms)
  if vals.isEmpty then none else some vals.sum

/-- The `cumulative_flow` column `df["daily_flow"].cumsum()` at position
`i`: absent where `daily_flow` is absent, otherwise the sum of the defined
values up to and including `i`. -/
def cumFlow (ms : List MergedRow) (i : Nat) : Option Rat :=
  (dailyFlow ms i).map (fun _ => ((List.range (i + 1)).filterMap (dailyFlow ms)).sum)

/-- One derived row of the frame, as emitted into `flows_data`. -/
structure FlowRecord where
  date : Int
  close : Rat
  shares : Int
  daily : Option Rat
  weekly : Option Rat
  monthly : Option Rat
  threeMonth : Option Rat
  sixMonth : Option Rat
  cumulative : Option Rat
deriving DecidableEq

/-- The derived row at position `i` of the merged frame. -/
def deriveRow (ms : List MergedRow) (i : Nat) : FlowRecord :=
  { date := (rowD ms i).1
    close := (rowD ms i).2.1
    shares := (rowD ms i).2.2
    daily := dailyFlow ms i
    weekly := rollingFlow 5 ms i
    monthly := rollingFlow 21 ms i
    threeMonth := rollingFlow 63 ms i
    sixMonth := rollingFlow 126 ms i
    cumulative := cumFlow ms i }

/-- The fully derived frame, in positional order. -/
def derive (ms : List MergedRow) : List FlowRecord :=
  (List.range ms.length).map (deriveRow ms)

/-- The `flows_data` list (fetch_flows.py, lines 144-161): restrict the
derived frame to dates on or after `now - 730` days, then keep rows whose
`daily_flow` is defined. -/
def emitFlows (ms : List MergedRow) (now : Int) : List FlowRecord :=
  ((derive ms).filter (fun r => decide (now - 730 ≤ r.date))).filter
    (fun r => r.daily.isSome)

/-- The latest-value summary block of the report. -/
structure EtfSummary where
  daily : Rat
  weekly : Rat
  monthly : Rat
  threeMonth : Rat
  sixMonth : Rat
deriving DecidableEq

/-- The parts of the per-symbol report document built from the merged
frame (metadata sourced from the enrichment call is outside the model). -/
structure EtfOutput where
  flows : List FlowRecord
  sharesOutstanding : Option Int
  summary : EtfSummary
deriving DecidableEq

/-- `fetch_etf_data` (fetch_flows.py, lines 74-189) on the two input
series: `none` exactly when the price history is empty; otherwise the
report is built, with summary values defaulting to 0 and the shares
metadata to `none` when the merged frame is empty. -/
def fetch_etf_data (prices : List PriceRow) (shares : List ShareRow)
    (now : Int) : Option EtfOutput :=
  if prices.isEmpty then none
  else
    let df := merge prices shares
    let n := df.length
    let latestShares : Option Int :=
      if df.isEmpty then none else some ((rowD df (n - 1)).2.2)
    let summary : EtfSummary :=
      if df.isEmpty then ⟨0, 0, 0, 0, 0⟩
      else
        ⟨(dailyFlow df (n - 1)).getD 0, (rollingFlow 5 df (n - 1)).getD 0,
          (rollingFlow 21 df (n - 1)).getD 0, (rollingFlow 63 df (n - 1)).getD 0,
          (rollingFlow 126 df (n - 1)).getD 0⟩
    some ⟨emitFlows df now, latestShares, summary⟩

/-! ## Concrete inputs for counterexamples and witnesses -/

/-- Price series with trading days 1 and 5. -/
def pricesC1 : List PriceRow := [(1, 10), (5, 12)]

/-- Shares series with an observation on day 4, which is not a price
date. -/
def sharesC1 : List ShareRow := [(1, 100), (4, 110)]

/-- A two-row merged frame with no shares change. -/
def msC4 : List MergedRow := [(0, 10, 100), (1, 10, 100)]

/-- A seven-row merged frame used to exercise the rolling windows. -/
def msW : List MergedRow :=
  [(0, 10, 100), (1, 10, 102), (2, 11, 101), (3, 12, 105), (4, 10, 105),
   (5, 9, 110), (6, 10, 111)]

/-- A provider response whose as-of date (Feb 24) differs from the
requested date (Feb 25). -/
def mismatchText : String :=
  "Fund Holdings as of,\"Feb 24, 2026\"\nShares Outstanding,\"116,000,000.00\""

/-- A provider keyed by requested date, returning `mismatchText` for
2026-02-25 and failing otherwise. -/
def fetchW : String → Option String :=
  fun d => if d = "2026-02-25" then some mismatchText else none

/-- A one-entry history. -/
def histW : Hist := [(("2026-02-24", "EWY"), 500)]

/-- A provider that always fails, to exhibit fetch-independence of skips. -/
def fetchNoneW : String → Option String :=
  fun _ => none

/-- The date of the one entry of `histW`. -/
def dateW : String := "2026-02-24"

/-- The requested backfill date for which `fetchW` answers. -/
def dateReqW : String := "2026-02-25"

/-- The ticker symbol used in the concrete store examples. -/
def symW : String := "EWY"

/-- The as-of date parsed from the example header. -/
def resultDateW : String := "2026-02-25"

/-- The fund-title line preceding the metadata lines in the witness text. -/
def preW : List (List Char) := ["iShares MSCI South Korea ETF".toList]

/-- Witness as-of-date metadata line. -/
def dlW : List Char := "Fund Holdings as of,\"Feb 25, 2026\"".toList

/-- Witness shares metadata line, in upper case. -/
def slW : List Char := "SHARES OUTSTANDING,\"116,000,000.00\"".toList

theorem histLookup_nil (k : String × String) : histLookup [] k = none := by
  simp [histLookup]

theorem histLookup_cons (e : (String × String) × Int) (t : Hist) (k : String × String) :
    histLookup (e :: t) k = if e.1 = k then some e.2 else histLookup t k := by
  by_cases he : e.1 = k
  · simp [histLookup, List.find?, he]
  · simp [histLookup, List.find?, he]

theorem histLookup_insert_self (h : Hist) (k : String × String) (v : Int) :
    histLookup (histInsert h k v) k = some v := by
  induction h with
  | nil => simp [histInsert, histLookup_cons, histLookup_nil]
  | cons e t ih =>
    by_cases he : e.1 = k
    · simp [histInsert, he, histLookup_cons]
    · simp [histInsert, he, histLookup_cons, ih]

theorem histLookup_insert_ne (h : Hist) (k k' : String × String) (v : Int)
    (hne : k' ≠ k) : histLookup (histInsert h k v) k' = histLookup h k' := by
  induction h with
  | nil => simp [histInsert, histLookup_cons, histLookup_nil, Ne.symm hne]
  | cons e t ih =>
    by_cases he : e.1 = k
    · subst he
      simp [histInsert, histLookup_cons, Ne.symm hne]
    · simp [histInsert, he, histLookup_cons, ih]

theorem histKeys_mem_insert (h : Hist) (k x : String × String) (v : Int)
    (hx : x ∈ histKeys (histInsert h k v)) : x = k ∨ x ∈ histKeys h := by
  induction h with
  | nil =>
    simp [histInsert, histKeys] at hx
    exact Or.inl hx
  | cons e t ih =>
    by_cases he : e.1 = k
    · simp [histInsert, he, histKeys] at hx ⊢
      tauto
    · simp [histInsert, he, histKeys] at hx ⊢
      rcases hx with hx | hx
      · tauto
      · rcases ih (by simpa [histKeys] using hx) with hx' | hx'
        · tauto
        · simp [histKeys] at hx'
          tauto

theorem keysNodup_insert (h : Hist) (k : String × String) (v : Int)
    (hnd : keysNodup h) : keysNodup (histInsert h k v) := by
  induction h with
  | nil => simp [histInsert, keysNodup, histKeys]
  | cons e t ih =>
    simp only [keysNodup, histKeys, List.map_cons, List.nodup_cons] at hnd
    by_cases he : e.1 = k
    · subst he
      simpa [histInsert, keysNodup, histKeys] using hnd
    · have ht := ih hnd.2
      simp only [histInsert, if_neg he, keysNodup, histKeys, List.map_cons,
        List.nodup_cons]
      refine ⟨?_, ht⟩
      intro hmem
      rcases histKeys_mem_insert t k e.1 v hmem with hx | hx
      · exact he hx
      · exact hnd.1 (by simpa [histKeys] using hx)

theorem keysNodup_backfillStep (symbol : String) (fetch : String → Option String)
    (st : Hist × BackfillCounters) (d : String) (hnd : keysNodup st.1) :
    keysNodup (backfillStep symbol fetch st d).1 := by
  unfold backfillStep
  split
  · exact hnd
  · split
    · exact hnd
    · split
      · split
        all_goals first
        | exact hnd
        | exact keysNodup_insert st.1 _ _ hnd
      · exact hnd
      · exact hnd

theorem keysNodup_backfill_fold (symbol : String) (fetch : String → Option String)
    (dates : List String) :
    ∀ st : Hist × BackfillCounters, keysNodup st.1 →
      keysNodup (dates.foldl (backfillStep symbol fetch) st).1 := by
  induction dates with
  | nil => intro st hnd; simpa using hnd
  | cons d ds ih =>
    intro st hnd
    exact ih _ (keysNodup_backfillStep symbol fetch st d hnd)

theorem save_history_pairwise (h : Hist) :
    List.Pairwise rowLe (save_history h) := by
  have hs : List.Sorted entryLe (List.insertionSort entryLe h) :=
    List.sorted_insertionSort entryLe h
  unfold save_history
  exact List.Pairwise.map _ (fun a b hab => Or.imp id (fun q => q) hab) hs

theorem save_history_perm (h : Hist) :
    (save_history h).Perm (h.map (fun e => (e.1.1, e.1.2, e.2))) := by
  exact List.Perm.map _ (List.perm_insertionSort entryLe h)

theorem save_history_keys_nodup (h : Hist) (hnd : keysNodup h) :
    ((save_history h).map (fun r => (r.1, r.2.1))).Nodup := by
  have hperm : ((save_history h).map (fun r => (r.1, r.2.1))).Perm
      ((h.map (fun e => (e.1.1, e.1.2, e.2))).map (fun r => (r.1, r.2.1))) :=
    List.Perm.map _ (save_history_perm h)
  have : (h.map (fun e => (e.1.1, e.1.2, e.2))).map
      (fun r : String × String × Int => (r.1, r.2.1)) = histKeys h := by
    simp [histKeys]
  rw [this] at hperm
  exact hperm.nodup_iff.mpr hnd

/-- C7: an upsert of an existing key with the identical shares value reports
`unchanged` and leaves the history, and hence the saved table, untouched;
an upsert of the same key with a different value reports `updated` and the
stored value becomes the new one. -/
theorem upsert_C7 (h : Hist) (d s : String) (v w : Int)
    (hv : histLookup h (d, s) = some v) (hw : w ≠ v) :
    upsert h d s v = (h, UpsertResult.unchanged) ∧
    save_history (upsert h d s v).1 = save_history h ∧
    (upsert h d s w).2 = UpsertResult.updated ∧
    histLookup (upsert h d s w).1 (d, s) = some w := by
  refine ⟨?_, ?_, ?_, ?_⟩
  · simp [upsert, hv]
  · simp [upsert, hv]
  · simp [upsert, hv, Ne.symm hw]
  · simp only [upsert, hv, if_neg (Ne.symm hw)]
    exact histLookup_insert_self h (d, s) w

theorem upsert_C7_witness :
    (histLookup histW (dateW, symW) = some 500 ∧ (600 : Int) ≠ 500) ∧
    (upsert histW dateW symW 500 = (histW, UpsertResult.unchanged) ∧
      save_history (upsert histW dateW symW 500).1 = save_history histW ∧
      (upsert histW dateW symW 600).2 = UpsertResult.updated ∧
      histLookup (upsert histW dateW symW 600).1 (dateW, symW) = some 600) :=
  ⟨⟨by decide, by decide⟩, upsert_C7 histW dateW symW 500 600 (by decide) (by decide)⟩

/-- C8: on a history with unique `(date, ticker)` keys, both the scrape
upsert and a backfill run keep the keys unique, and the saved table is
sorted ascending by `(date, ticker)`, is a permutation of the history's
rows, and carries at most one row per key. -/
theorem store_invariant_C8 (h : Hist) (d s : String) (v : Int)
    (bsym : String) (fetch : String → Option String) (dates : List String)
    (hnd : keysNodup h) :
    keysNodup (upsert h d s v).1 ∧
    keysNodup (backfill_ticker bsym fetch dates h).1 ∧
    List.Pairwise rowLe (save_history h) ∧
    (save_history h).Perm (h.map (fun e => (e.1.1, e.1.2, e.2))) ∧
    ((save_history h).map (fun r => (r.1, r.2.1))).Nodup := by
  refine ⟨?_, ?_, save_history_pairwise h, save_history_perm h,
    save_history_keys_nodup h hnd⟩
  · unfold upsert
    cases hv : histLookup h (d, s) with
    | none => simpa using keysNodup_insert h (d, s) v hnd
    | some ex =>
      by_cases he : ex = v
      · simpa [he] using hnd
      · simpa [he] using keysNodup_insert h (d, s) v hnd
  · exact keysNodup_backfill_fold bsym fetch dates (h, ⟨0, 0, 0, 0⟩) hnd

theorem store_invariant_C8_witness :
    keysNodup histW ∧
    (keysNodup (upsert histW dateW symW 600).1 ∧
      keysNodup (backfill_ticker symW fetchW [dateReqW] histW).1 ∧
      List.Pairwise rowLe (save_history histW) ∧
      (save_history histW).Perm (histW.map (fun e => (e.1.1, e.1.2, e.2))) ∧
      ((save_history histW).map (fun r => (r.1, r.2.1))).Nodup) :=
  ⟨by unfold keysNodup histKeys; decide,
    store_invariant_C8 histW dateW symW 600 symW fetchW [dateReqW]
      (by unfold keysNodup histKeys; decide)⟩

theorem trySharesLine_not_meta (l : List Char) (h : isSharesMetaLine l = false) :
    trySharesLine l = none := by
  simp [trySharesLine, h]

theorem tryDateLine_not_meta (l : List Char) (h : isDateMetaLine l = false) :
    tryDateLine l = none := by
  simp [tryDateLine, h]

theorem parseSharesLines_cons_none (l : List Char) (ls : List (List Char))
    (h : trySharesLine l = none) :
    parseSharesLines (l :: ls) = parseSharesLines ls := by
  simp [parseSharesLines, h]

theorem parseSharesLines_cons_some (l : List Char) (ls : List (List Char))
    (v : Int) (h : trySharesLine l = some v) :
    parseSharesLines (l :: ls) = some v := by
  simp [parseSharesLines, h]

theorem parseDateLines_cons_some (l : List Char) (ls : List (List Char))
    (r : List Char) (h : tryDateLine l = some r) :
    parseDateLines (l :: ls) = some r := by
  simp [parseDateLines, h]

theorem parseSharesLines_append_none (pre rest : List (List Char))
    (h : ∀ l ∈ pre, trySharesLine l = none) :
    parseSharesLines (pre ++ rest) = parseSharesLines rest := by
  induction pre with
  | nil => rfl
  | cons l ls ih =>
    rw [List.cons_append, parseSharesLines_cons_none l _ (h l (by simp))]
    exact ih (fun x hx => h x (by simp [hx]))

theorem parseDateLines_append_none (pre rest : List (List Char))
    (h : ∀ l ∈ pre, tryDateLine l = none) :
    parseDateLines (pre ++ rest) = parseDateLines rest := by
  induction pre with
  | nil => rfl
  | cons l ls ih =>
    have hl : tryDateLine l = none := h l (by simp)
    rw [List.cons_append]
    simp only [parseDateLines, hl]
    exact ih (fun x hx => h x (by simp [hx]))

set_option maxHeartbeats 1000000 in
theorem sharesVariants_value : ∀ sl ∈ sharesLineVariants, ∀ b : Bool,
    trySharesLine (bomPref b ++ sl) = some 116000000 := by decide

set_option maxHeartbeats 1000000 in
theorem dateVariants_value : ∀ dl ∈ dateLineVariants, ∀ b : Bool,
    tryDateLine (bomPref b ++ dl) = some (resultDateW.toList) := by decide

set_option maxHeartbeats 1000000 in
theorem dateVariants_not_shares : ∀ dl ∈ dateLineVariants, ∀ b : Bool,
    trySharesLine (bomPref b ++ dl) = none := by decide

set_option maxRecDepth 40000 in
set_option maxHeartbeats 2000000 in
/-- C9: in any provider text block whose first ten lines consist of
non-metadata lines followed by the two metadata lines (in any letter case
and optionally prefixed by a byte-order mark), the parsers locate the two
lines, extract 116000000 from the quoted thousands-separated decimal
`116,000,000.00`, and return the as-of date as `2026-02-25`; the full
example header text parses likewise end to end. -/
theorem parsers_C9 (pre suf : List (List Char)) (b1 b2 : Bool)
    (dl sl : List Char) (hdl : dl ∈ dateLineVariants)
    (hsl : sl ∈ sharesLineVariants) (hlen : pre.length + 2 ≤ 10)
    (hpre : ∀ l ∈ pre, isSharesMetaLine l = false ∧ isDateMetaLine l = false) :
    parseSharesLines ((pre ++ [bomPref b1 ++ dl, bomPref b2 ++ sl] ++ suf).take 10) =
      some 116000000 ∧
    parseDateLines ((pre ++ [bomPref b1 ++ dl, bomPref b2 ++ sl] ++ suf).take 10) =
      some resultDateW.toList ∧
    parse_shares_outstanding exampleHeaderText = some 116000000 ∧
    parse_holdings_date exampleHeaderText = some resultDateW := by
  obtain ⟨k, hk⟩ : ∃ k, 10 - pre.length = k + 2 := ⟨10 - pre.length - 2, by omega⟩
  have hp : pre.take 10 = pre := List.take_of_length_le (by omega)
  have htake : (pre ++ [bomPref b1 ++ dl, bomPref b2 ++ sl] ++ suf).take 10 =
      pre ++ (bomPref b1 ++ dl) :: (bomPref b2 ++ sl) :: suf.take k := by
    rw [List.append_assoc, List.take_append_eq_append_take, hp, hk]
    rfl
  refine ⟨?_, ?_, by decide, by decide⟩
  · rw [htake,
      parseSharesLines_append_none pre _
        (fun l hl => trySharesLine_not_meta l (hpre l hl).1),
      parseSharesLines_cons_none _ _ (dateVariants_not_shares dl hdl b1),
      parseSharesLines_cons_some _ _ _ (sharesVariants_value sl hsl b2)]
  · rw [htake,
      parseDateLines_append_none pre _
        (fun l hl => tryDateLine_not_meta l (hpre l hl).2),
      parseDateLines_cons_some _ _ _ (dateVariants_value dl hdl b1)]

set_option maxRecDepth 40000 in
set_option maxHeartbeats 2000000 in
theorem parsers_C9_witness :
    (dlW ∈ dateLineVariants ∧ slW ∈ sharesLineVariants ∧ preW.length + 2 ≤ 10 ∧
      (∀ l ∈ preW, isSharesMetaLine l = false ∧ isDateMetaLine l = false)) ∧
    (parseSharesLines ((preW ++ [bomPref true ++ dlW, bomPref false ++ slW] ++
        []).take 10) = some 116000000 ∧
      parseDateLines ((preW ++ [bomPref true ++ dlW, bomPref false ++ slW] ++
        []).take 10) = some resultDateW.toList ∧
      parse_shares_outstanding exampleHeaderText = some 116000000 ∧
      parse_holdings_date exampleHeaderText = some resultDateW) :=
  ⟨⟨by decide, by decide, by decide, by decide⟩,
    parsers_C9 preW [] true false dlW slW (by decide) (by decide) (by decide)
      (by decide)⟩

theorem backfillStep_lookup_mono (symbol : String) (fetch : String → Option String)
    (st : Hist × BackfillCounters) (d : String) (k : String × String) (v : Int)
    (hk : histLookup st.1 k = some v) :
    histLookup (backfillStep symbol fetch st d).1 k = some v := by
  unfold backfillStep
  split
  · exact hk
  · next hex =>
    split
    · exact hk
    · split
      · split
        · exact hk
        · next returnedDate shares hrdeq hsheq hne =>
          have hrd : returnedDate = d := not_not.mp hne
          subst hrd
          have hkne : k ≠ (returnedDate, symbol) := by
            intro hkeq
            rw [hkeq] at hk
            simp [hk] at hex
          rw [histLookup_insert_ne st.1 (returnedDate, symbol) k shares hkne]
          exact hk
      · exact hk
      · exact hk

theorem backfillStep_lookup_frame (symbol : String) (fetch : String → Option String)
    (st : Hist × BackfillCounters) (d : String) (k : String × String)
    (hk : k ≠ (d, symbol)) :
    histLookup (backfillStep symbol fetch st d).1 k = histLookup st.1 k := by
  unfold backfillStep
  split
  · rfl
  · split
    · rfl
    · split
      · split
        · rfl
        · next returnedDate shares hrdeq hsheq hne =>
          have hrd : returnedDate = d := not_not.mp hne
          subst hrd
          exact histLookup_insert_ne st.1 (returnedDate, symbol) k shares hk
      · rfl
      · rfl

theorem backfill_fold_lookup_mono (symbol : String) (fetch : String → Option String)
    (dates : List String) :
    ∀ (st : Hist × BackfillCounters) (k : String × String) (v : Int),
      histLookup st.1 k = some v →
      histLookup (dates.foldl (backfillStep symbol fetch) st).1 k = some v := by
  induction dates with
  | nil => intro st k v hk; exact hk
  | cons d ds ih =>
    intro st k v hk
    exact ih _ k v (backfillStep_lookup_mono symbol fetch st d k v hk)

theorem backfill_fold_lookup_frame (symbol : String) (fetch : String → Option String)
    (dates : List String) :
    ∀ (st : Hist × BackfillCounters) (k : String × String),
      (∀ e ∈ dates, k ≠ (e, symbol)) →
      histLookup (dates.foldl (backfillStep symbol fetch) st).1 k =
        histLookup st.1 k := by
  induction dates with
  | nil => intro st k _; rfl
  | cons d ds ih =>
    intro st k hk
    rw [List.foldl_cons, ih _ k (fun e he => hk e (by simp [he])),
      backfillStep_lookup_frame symbol fetch st d k (hk d (by simp))]

theorem backfillStep_mismatch (symbol : String) (fetch : String → Option String)
    (st : Hist × BackfillCounters) (d text rd : String) (sh : Int)
    (habs : histLookup st.1 (d, symbol) = none)
    (hfetch : fetch d = some text)
    (hrd : parse_holdings_date text = some rd)
    (hsh : parse_shares_outstanding text = some sh)
    (hne : rd ≠ d) :
    backfillStep symbol fetch st d =
      (st.1, { st.2 with skippedDateMismatch := st.2.skippedDateMismatch + 1 }) := by
  unfold backfillStep
  rw [habs, hfetch]
  simp only [Option.isSome_none, Bool.false_eq_true, if_false, hrd, hsh, if_pos hne]

/-- C2: during backfill, a response parsed to an as-of date different from
the requested date is discarded: the step leaves the history unchanged and
bumps only the date-mismatch counter, which is a separate field from the
no-data counter; and after the whole run the history still has no entry for
that requested date. -/
theorem backfill_C2 (symbol : String) (fetch : String → Option String)
    (dates : List String) (history : Hist) (c : BackfillCounters)
    (d text rd : String) (sh : Int)
    (hmem : d ∈ dates) (hnd : dates.Nodup)
    (habs : histLookup history (d, symbol) = none)
    (hfetch : fetch d = some text)
    (hrd : parse_holdings_date text = some rd)
    (hsh : parse_shares_outstanding text = some sh)
    (hne : rd ≠ d) :
    backfillStep symbol fetch (history, c) d =
      (history, { c with skippedDateMismatch := c.skippedDateMismatch + 1 }) ∧
    histLookup (backfill_ticker symbol fetch dates history).1 (d, symbol) = none := by
  constructor
  · exact backfillStep_mismatch symbol fetch (history, c) d text rd sh habs hfetch
      hrd hsh hne
  · obtain ⟨l1, l2, rfl⟩ := List.append_of_mem hmem
    have hsplit := List.nodup_append.mp hnd
    have hd1 : d ∉ l1 := fun hd => (hsplit.2.2 hd (by simp)).elim
    have hd2 : d ∉ l2 := by
      have := hsplit.2.1
      rw [List.nodup_cons] at this
      exact this.1
    have hfr1 : ∀ e ∈ l1, ((d, symbol) : String × String) ≠ (e, symbol) := by
      intro e he heq
      simp only [Prod.mk.injEq] at heq
      exact hd1 (by rw [heq.1]; exact he)
    have hfr2 : ∀ e ∈ l2, ((d, symbol) : String × String) ≠ (e, symbol) := by
      intro e he heq
      simp only [Prod.mk.injEq] at heq
      exact hd2 (by rw [heq.1]; exact he)
    unfold backfill_ticker
    rw [List.foldl_append, List.foldl_cons]
    have h1 : histLookup (List.foldl (backfillStep symbol fetch)
        (history, (⟨0, 0, 0, 0⟩ : BackfillCounters)) l1).1 (d, symbol) = none := by
      rw [backfill_fold_lookup_frame symbol fetch l1 _ _ hfr1]
      exact habs
    rw [backfillStep_mismatch symbol fetch _ d text rd sh h1 hfetch hrd hsh hne]
    rw [backfill_fold_lookup_frame symbol fetch l2 _ _ hfr2]
    exact h1

set_option maxRecDepth 40000 in
set_option maxHeartbeats 2000000 in
theorem backfill_C2_witness :
    (dateReqW ∈ [dateReqW] ∧ ([dateReqW] : List String).Nodup ∧
      histLookup [] (dateReqW, symW) = none ∧
      fetchW dateReqW = some mismatchText ∧
      parse_holdings_date mismatchText = some dateW ∧
      parse_shares_outstanding mismatchText = some 116000000 ∧
      dateW ≠ dateReqW) ∧
    (backfillStep symW fetchW ([], ⟨0, 0, 0, 0⟩) dateReqW =
        (([] : Hist), ⟨0, 0, 0, 1⟩) ∧
      histLookup (backfill_ticker symW fetchW [dateReqW] []).1
        (dateReqW, symW) = none) :=
  ⟨⟨by decide, by decide, by decide, by decide, by decide, by decide, by decide⟩,
    backfill_C2 symW fetchW [dateReqW] [] ⟨0, 0, 0, 0⟩ dateReqW mismatchText
      dateW 116000000 (by decide) (by decide) (by decide) (by decide) (by decide)
      (by decide) (by decide)⟩

/-- C10: a backfill run never changes an entry that is already present
when it starts: every stored `(date, symbol)` key keeps its value, and a
requested date already in the history is skipped by its step with only the
already-had counter bumped, independently of what the provider would
return. -/
theorem backfill_C10 (symbol : String) (fetch fetch' : String → Option String)
    (dates : List String) (history : Hist) (k : String × String) (v : Int)
    (c : BackfillCounters) (d : String)
    (hk : histLookup history k = some v)
    (hex : (histLookup history (d, symbol)).isSome) :
    histLookup (backfill_ticker symbol fetch dates history).1 k = some v ∧
    backfillStep symbol fetch (history, c) d =
      (history, { c with skippedExisting := c.skippedExisting + 1 }) ∧
    backfillStep symbol fetch (history, c) d =
      backfillStep symbol fetch' (history, c) d := by
  refine ⟨?_, ?_, ?_⟩
  · exact backfill_fold_lookup_mono symbol fetch dates (history, ⟨0, 0, 0, 0⟩)
      k v hk
  · unfold backfillStep
    simp [hex]
  · unfold backfillStep
    simp [hex]

theorem backfill_C10_witness :
    (histLookup histW (dateW, symW) = some 500 ∧
      (histLookup histW (dateW, symW)).isSome) ∧
    (histLookup (backfill_ticker symW fetchW [dateReqW] histW).1
        (dateW, symW) = some 500 ∧
      backfillStep symW fetchW (histW, ⟨0, 0, 0, 0⟩) dateW =
        (histW, ⟨0, 1, 0, 0⟩) ∧
      backfillStep symW fetchW (histW, ⟨0, 0, 0, 0⟩) dateW =
        backfillStep symW fetchNoneW (histW, ⟨0, 0, 0, 0⟩) dateW) :=
  ⟨⟨by decide, by decide⟩,
    backfill_C10 symW fetchW fetchNoneW [dateReqW] histW (dateW, symW) 500
      ⟨0, 0, 0, 0⟩ dateW (by decide) (by decide)⟩

theorem dailyFlow_zero (ms : List MergedRow) : dailyFlow ms 0 = none := rfl

theorem dailyFlow_eq_some (ms : List MergedRow) (i : Nat) (h1 : 1 ≤ i)
    (h2 : i < ms.length) : dailyFlow ms i = some (flowVal ms i) := by
  cases i with
  | zero => omega
  | succ j =>
    have hj : j < ms.length := by omega
    simp only [dailyFlow, List.get?_eq_get h2, List.get?_eq_get hj, flowVal, rowD,
      Nat.add_sub_cancel, Option.getD_some]

theorem filterMap_eq_map_of_some (f : Nat → Option Rat) (g : Nat → Rat)
    (l : List Nat) (h : ∀ a ∈ l, f a = some (g a)) :
    l.filterMap f = l.map g := by
  induction l with
  | nil => rfl
  | cons x xs ih =>
    rw [List.filterMap_cons_some (h x (by simp)), List.map_cons,
      ih (fun a ha => h a (by simp [ha]))]

theorem flowDefs_eq (ms : List MergedRow) :
    ∀ i, i < ms.length →
      (List.range (i + 1)).filterMap (dailyFlow ms) =
        (List.range i).map (fun k => flowVal ms (k + 1)) := by
  intro i
  induction i with
  | zero =>
    intro _
    simp [List.range_succ, dailyFlow_zero]
  | succ j ih =>
    intro h
    rw [List.range_succ, List.filterMap_append, ih (by omega)]
    rw [List.range_succ (n := j), List.map_append]
    congr 1
    simp [List.filterMap_cons_some (dailyFlow_eq_some ms (j + 1) (by omega) h)]

/-- C3: for each of the four windows, the rolling flow at a valid position
is the sum of the trailing `w` defined daily flows when at least `w` of
them exist up to that position, and the sum of all the defined daily flows
up to that position when fewer than `w` (but at least one) exist. -/
theorem rolling_C3 (ms : List MergedRow) (w i : Nat)
    (hw : w ∈ [5, 21, 63, 126]) (hi : i < ms.length) :
    (w ≤ ((List.range (i + 1)).filterMap (dailyFlow ms)).length →
      rollingFlow w ms i =
        some ((((List.range (i + 1)).filterMap (dailyFlow ms)).drop
          (((List.range (i + 1)).filterMap (dailyFlow ms)).length - w)).sum)) ∧
    (((List.range (i + 1)).filterMap (dailyFlow ms)) ≠ [] →
      ((List.range (i + 1)).filterMap (dailyFlow ms)).length < w →
      rollingFlow w ms i =
        some (((List.range (i + 1)).filterMap (dailyFlow ms)).sum)) := by
  have hw1 : 1 ≤ w := by
    simp only [List.mem_cons, List.not_mem_nil, or_false] at hw
    rcases hw with rfl | rfl | rfl | rfl <;> omega
  have hdefs := flowDefs_eq ms i hi
  have hlen : ((List.range (i + 1)).filterMap (dailyFlow ms)).length = i := by
    rw [hdefs]
    simp
  constructor
  · intro hwl
    rw [hlen] at hwl
    have hsplit : List.range (i + 1) =
        List.range (i + 1 - w) ++ (List.range w).map ((i + 1 - w) + ·) := by
      have h := List.range_add (i + 1 - w) w
      rw [show (i + 1 - w) + w = i + 1 by omega] at h
      exact h
    have hvals : ((List.range (i + 1)).drop (i + 1 - w)).filterMap (dailyFlow ms) =
        (List.range w).map (fun k => flowVal ms ((i + 1 - w) + k)) := by
      rw [hsplit, List.drop_left' (by simp), List.filterMap_map]
      apply filterMap_eq_map_of_some
      intro a ha
      have ha' : a < w := by simpa [List.mem_range] using ha
      simp only [Function.comp_apply]
      exact dailyFlow_eq_some ms ((i + 1 - w) + a) (by omega) (by omega)
    have hrhs : ((List.range (i + 1)).filterMap (dailyFlow ms)).drop
        (((List.range (i + 1)).filterMap (dailyFlow ms)).length - w) =
        (List.range w).map (fun k => flowVal ms ((i + 1 - w) + k)) := by
      rw [hlen, hdefs]
      have hsplit2 : List.range i =
          List.range (i - w) ++ (List.range w).map ((i - w) + ·) := by
        have h := List.range_add (i - w) w
        rw [show (i - w) + w = i by omega] at h
        exact h
      rw [hsplit2, List.map_append, List.drop_left' (by simp), List.map_map]
      apply List.map_congr_left
      intro k hk
      simp only [Function.comp_apply]
      congr 1
      omega
    have hne2 : ¬ ((List.range w).map
        (fun k => flowVal ms ((i + 1 - w) + k))).isEmpty = true := by
      simp only [List.isEmpty_iff, List.map_eq_nil_iff, List.range_eq_nil]
      omega
    simp only [rollingFlow]
    rw [hvals, hrhs, if_neg hne2]
  · intro hne hlt
    rw [hlen] at hlt
    have hz : i + 1 - w = 0 := by omega
    have hne' : ¬ ((List.range (i + 1)).filterMap (dailyFlow ms)).isEmpty = true := by
      simpa [List.isEmpty_iff] using hne
    simp only [rollingFlow]
    rw [hz, List.drop_zero, if_neg hne']

theorem rolling_C3_witness :
    ((5 ∈ [5, 21, 63, 126] ∧ 6 < msW.length) ∧
      (5 ≤ ((List.range 7).filterMap (dailyFlow msW)).length ∧
        rollingFlow 5 msW 6 =
          some ((((List.range 7).filterMap (dailyFlow msW)).drop
            (((List.range 7).filterMap (dailyFlow msW)).length - 5)).sum))) ∧
    (((List.range 3).filterMap (dailyFlow msW)) ≠ [] ∧
      ((List.range 3).filterMap (dailyFlow msW)).length < 5 ∧
      rollingFlow 5 msW 2 = some (((List.range 3).filterMap (dailyFlow msW)).sum)) :=
  ⟨⟨⟨by decide, by decide⟩,
      ⟨by decide, (rolling_C3 msW 5 6 (by decide) (by decide)).1 (by decide)⟩⟩,
    ⟨by decide, by decide, (rolling_C3 msW 5 2 (by decide) (by decide)).2 (by decide)
      (by decide)⟩⟩

/-- C4, counterexample to the claim as stated: on a two-row frame the
cumulative flow at row 0 is absent (pandas `cumsum` keeps the NaN), not
the empty sum 0 that "sum of all defined daily_flow over 0..0, the absent
row-0 flow contributing 0" would demand. -/
theorem cumulative_C4_cex :
    ¬ cumFlow msC4 0 = some (((List.range 1).filterMap (dailyFlow msC4)).sum) := by
  decide

/-- C4, amended: the cumulative flow at row 0 is absent rather than 0; from
row 1 on it equals the sum of all defined daily flows up to the row, the
difference of two consecutive defined cumulative values equals the daily
flow (for rows 2 on), and at row 1 the cumulative flow equals the daily
flow itself. -/
theorem cumulative_C4_amended (ms : List MergedRow) (i : Nat) (hi : i < ms.length) :
    (1 ≤ i → cumFlow ms i = some (((List.range (i + 1)).filterMap (dailyFlow ms)).sum)) ∧
    cumFlow ms 0 = none ∧
    (2 ≤ i → ∃ a b c, cumFlow ms i = some a ∧ cumFlow ms (i - 1) = some b ∧
      dailyFlow ms i = some c ∧ a - b = c) ∧
    (i = 1 → cumFlow ms 1 = dailyFlow ms 1) := by
  refine ⟨?_, rfl, ?_, ?_⟩
  · intro h1
    simp [cumFlow, dailyFlow_eq_some ms i h1 hi]
  · intro h2
    obtain ⟨j, rfl⟩ : ∃ j, i = j + 2 := ⟨i - 2, by omega⟩
    have hj1 : j + 1 < ms.length := by omega
    refine ⟨((List.range (j + 3)).filterMap (dailyFlow ms)).sum,
      ((List.range (j + 2)).filterMap (dailyFlow ms)).sum, flowVal ms (j + 2),
      ?_, ?_, ?_, ?_⟩
    · simp [cumFlow, dailyFlow_eq_some ms (j + 2) (by omega) hi]
    · simp [cumFlow, dailyFlow_eq_some ms (j + 1) (by omega) hj1]
    · exact dailyFlow_eq_some ms (j + 2) (by omega) hi
    · have hr : (List.map (fun k => flowVal ms (k + 1)) (List.range (j + 2))).sum =
          (List.map (fun k => flowVal ms (k + 1)) (List.range (j + 1))).sum +
            flowVal ms (j + 2) := by
        have h : List.range (j + 2) = List.range (j + 1) ++ [j + 1] := by
          simpa using List.range_succ (n := j + 1)
        rw [h, List.map_append, List.sum_append]
        simp
      rw [flowDefs_eq ms (j + 2) hi, flowDefs_eq ms (j + 1) hj1, hr]
      ring
  · intro h1
    subst h1
    have hd := dailyFlow_eq_some ms 1 (by omega) hi
    have hfd := flowDefs_eq ms 1 hi
    simp only [cumFlow, hd, hfd, Option.map_some']
    simp [List.range_succ]

theorem cumulative_C4_witness :
    (2 < msW.length) ∧
    (cumFlow msW 2 = some (((List.range 3).filterMap (dailyFlow msW)).sum) ∧
      cumFlow msW 0 = none ∧
      (∃ a b c, cumFlow msW 2 = some a ∧ cumFlow msW 1 = some b ∧
        dailyFlow msW 2 = some c ∧ a - b = c)) := by
  refine ⟨by decide, ?_, ?_, ?_⟩
  · exact (cumulative_C4_amended msW 2 (by decide)).1 (by decide)
  · exact (cumulative_C4_amended msW 2 (by decide)).2.1
  · exact (cumulative_C4_amended msW 2 (by decide)).2.2.1 (by decide)

/-- C5: the emitted flow records are exactly the derived rows whose
`daily_flow` is defined and whose date lies in the trailing 730-day
window, with the rolling and cumulative values of the full derivation; in
particular row 0, whose shares change is undefined, has an absent
`daily_flow` and is therefore excluded rather than reported as zero. -/
theorem emit_C5 (ms : List MergedRow) (now : Int) :
    (∀ r, r ∈ emitFlows ms now ↔
      (r ∈ derive ms ∧ r.daily.isSome ∧ now - 730 ≤ r.date)) ∧
    dailyFlow ms 0 = none ∧ (deriveRow ms 0).daily = none := by
  refine ⟨?_, rfl, rfl⟩
  intro r
  unfold emitFlows
  simp only [List.mem_filter, decide_eq_true_eq]
  tauto

theorem emit_C5_witness :
    (deriveRow msW 6 ∈ emitFlows msW 800 ↔
      (deriveRow msW 6 ∈ derive msW ∧ (deriveRow msW 6).daily.isSome ∧
        (800 : Int) - 730 ≤ (deriveRow msW 6).date)) ∧
    dailyFlow msW 0 = none ∧ (deriveRow msW 0).daily = none :=
  ⟨(emit_C5 msW 800).1 (deriveRow msW 6), (emit_C5 msW 800).2.1,
    (emit_C5 msW 800).2.2⟩

theorem lookupShares_nil (d : Int) : lookupShares [] d = none := rfl

theorem dropna_ffill_eq_mergeAux (shares : List ShareRow) :
    ∀ (prices : List PriceRow) (carry : Option Int),
      dropnaShares (ffillCol carry (alignPrices prices shares)) =
        mergeAux shares carry prices := by
  intro prices
  induction prices with
  | nil => intro carry; rfl
  | cons p ps ih =>
    intro carry
    simp only [alignPrices, List.map_cons] at ih ⊢
    cases hl : lookupShares shares p.1 with
    | some v =>
      simp only [ffillCol, hl, dropnaShares, List.filterMap_cons, Option.map_some',
        mergeAux]
      rw [← ih (some v)]
      rfl
    | none =>
      cases carry with
      | some v =>
        simp only [ffillCol, hl, dropnaShares, List.filterMap_cons, Option.map_some',
          mergeAux]
        rw [← ih (some v)]
        rfl
      | none =>
        simp only [ffillCol, hl, dropnaShares, List.filterMap_cons, mergeAux]
        rw [← ih none]
        rfl

theorem merge_empty_shares (prices : List PriceRow) : merge prices [] = [] := by
  unfold merge
  rw [dropna_ffill_eq_mergeAux]
  have hz : mergeAux [] none prices = [] := by
    induction prices with
    | nil => rfl
    | cons p ps ih => simpa [mergeAux, lookupShares_nil] using ih
  rw [hz]
  rfl

theorem getLast_of_max (l : List ShareRow) (d v : Int)
    (hs : List.Pairwise (fun a c : ShareRow => a.1 < c.1) l)
    (hm : (d, v) ∈ l) (hmax : ∀ s ∈ l, s.1 ≤ d) :
    l.getLast? = some (d, v) := by
  induction l with
  | nil => cases hm
  | cons e t ih =>
    cases t with
    | nil =>
      simp only [List.mem_singleton] at hm
      rw [← hm]
      rfl
    | cons f t' =>
      rw [List.getLast?_cons_cons]
      rcases List.mem_cons.mp hm with he | hm'
      · exfalso
        have hf : e.1 < f.1 := (List.pairwise_cons.mp hs).1 f (by simp)
        have hfd : f.1 ≤ d := hmax f (by simp)
        rw [← he] at hf
        omega
      · exact ih (List.pairwise_cons.mp hs).2 hm'
          (fun s hsm => hmax s (by simp [hsm]))

theorem mergeAux_eq_locf (prices : List PriceRow) (shares : List ShareRow)
    (hs : List.Pairwise (fun a c : ShareRow => a.1 < c.1) shares) :
    ∀ (ps : List PriceRow) (b : Int) (carry : Option Int),
      (∀ x ∈ ps, x ∈ prices) →
      List.Pairwise (fun a c : PriceRow => a.1 < c.1) ps →
      (∀ x ∈ ps, b < x.1) →
      (∀ x ∈ prices, x.1 ≤ b ∨ x.1 ∈ priceDates ps) →
      carry = ((alignedShares prices shares).filter
        (fun s => decide (s.1 ≤ b))).getLast?.map (fun s => s.2) →
      mergeAux shares carry ps =
        ps.filterMap (fun p => (locfShares (alignedShares prices shares) p.1).map
          (fun v => (p.1, p.2, v))) := by
  intro ps
  induction ps with
  | nil =>
    intro b carry _ _ _ _ _
    rfl
  | cons p ps' ih =>
    intro b carry hsub hps hgt hcov hcarry
    have hbd : b < p.1 := hgt p (by simp)
    have hA : List.Pairwise (fun a c : ShareRow => a.1 < c.1)
        (alignedShares prices shares) := hs.filter _
    have hAsub : ∀ s ∈ alignedShares prices shares, s.1 ∈ priceDates prices := by
      intro s hsm
      have h := List.mem_filter.mp hsm
      simpa using h.2
    have hAshares : ∀ s ∈ alignedShares prices shares, s ∈ shares := by
      intro s hsm
      exact (List.mem_filter.mp hsm).1
    have htail : ∀ x ∈ ps', p.1 < x.1 := (List.pairwise_cons.mp hps).1
    have hcov' : ∀ x ∈ prices, x.1 ≤ p.1 ∨ x.1 ∈ priceDates ps' := by
      intro x hx
      rcases hcov x hx with h | h
      · exact Or.inl (by omega)
      · simp only [priceDates, List.map_cons, List.mem_cons] at h
        rcases h with h | h
        · exact Or.inl (le_of_eq h)
        · exact Or.inr h
    cases hl : lookupShares shares p.1 with
    | some v =>
      have hfind : ∃ s, List.find? (fun s => decide (s.1 = p.1)) shares = some s ∧
          s.2 = v := by
        unfold lookupShares at hl
        cases hf : List.find? (fun s => decide (s.1 = p.1)) shares with
        | none => rw [hf] at hl; cases hl
        | some s =>
          rw [hf] at hl
          exact ⟨s, rfl, by simpa using hl⟩
      obtain ⟨s, hf, hv⟩ := hfind
      have hs1 : s.1 = p.1 := by simpa using List.find?_some hf
      have hsmem : s ∈ shares := List.mem_of_find?_eq_some hf
      have hsP : s = (p.1, v) := by
        obtain ⟨a, c⟩ := s
        simp only at hs1 hv
        rw [hs1, hv]
      rw [hsP] at hsmem
      have hmA : ((p.1, v) : ShareRow) ∈ alignedShares prices shares := by
        apply List.mem_filter.mpr
        refine ⟨hsmem, ?_⟩
        simp only [decide_eq_true_eq, priceDates, List.mem_map]
        exact ⟨p, hsub p (by simp), rfl⟩
      have hlast : ((alignedShares prices shares).filter
          (fun s => decide (s.1 ≤ p.1))).getLast? = some (p.1, v) := by
        apply getLast_of_max
        · exact hA.filter _
        · exact List.mem_filter.mpr ⟨hmA, by simp⟩
        · intro t htm
          have h := List.mem_filter.mp htm
          simpa using h.2
      have hlocf : locfShares (alignedShares prices shares) p.1 = some v := by
        unfold locfShares
        rw [hlast]
        rfl
      simp only [mergeAux, hl, List.filterMap_cons, hlocf, Option.map_some']
      congr 1
      apply ih p.1 (some v) (fun x hx => hsub x (by simp [hx]))
        (List.pairwise_cons.mp hps).2 htail hcov'
      rw [hlast]
      rfl
    | none =>
      have hnone : ∀ x ∈ shares, x.1 ≠ p.1 := by
        unfold lookupShares at hl
        cases hf : List.find? (fun s => decide (s.1 = p.1)) shares with
        | some s => rw [hf] at hl; cases hl
        | none =>
          intro x hx
          have h := List.find?_eq_none.mp hf x hx
          simpa using h
      have hfeq : (alignedShares prices shares).filter (fun s => decide (s.1 ≤ p.1)) =
          (alignedShares prices shares).filter (fun s => decide (s.1 ≤ b)) := by
        apply List.filter_congr
        intro x hxA
        have hxP := hAsub x hxA
        have hxS := hAshares x hxA
        by_cases hxb : x.1 ≤ b
        · have hxp : x.1 ≤ p.1 := by omega
          simp [hxb, hxp]
        · have hxne : x.1 ≠ p.1 := hnone x hxS
          have hxp : ¬ x.1 ≤ p.1 := by
            obtain ⟨q, hq, hqeq⟩ := List.mem_map.mp hxP
            rcases hcov q hq with h | h
            · omega
            · simp only [priceDates, List.map_cons, List.mem_cons] at h
              rcases h with h | h
              · exfalso
                rw [hqeq] at h
                exact hxne h
              · obtain ⟨r, hr, hreq⟩ := List.mem_map.mp h
                have := htail r hr
                omega
          simp [hxb, hxp]
      have hlocf : locfShares (alignedShares prices shares) p.1 = carry := by
        unfold locfShares
        rw [hfeq]
        exact hcarry.symm
      have hcarry' : carry = ((alignedShares prices shares).filter
          (fun s => decide (s.1 ≤ p.1))).getLast?.map (fun s => s.2) := by
        rw [hfeq]
        exact hcarry
      cases carry with
      | some v =>
        simp only [mergeAux, hl, List.filterMap_cons, hlocf, Option.map_some']
        congr 1
        exact ih p.1 (some v) (fun x hx => hsub x (by simp [hx]))
          (List.pairwise_cons.mp hps).2 htail hcov' hcarry'
      | none =>
        simp only [mergeAux, hl, List.filterMap_cons, hlocf]
        exact ih p.1 none (fun x hx => hsub x (by simp [hx]))
          (List.pairwise_cons.mp hps).2 htail hcov' hcarry'

theorem pairwise_locfMerge (prices : List PriceRow) (shares : List ShareRow)
    (hp : List.Pairwise (fun a c : PriceRow => a.1 < c.1) prices) :
    List.Pairwise dateLe (locfMerge prices shares) := by
  unfold locfMerge
  apply List.Pairwise.filterMap _ _ hp
  intro a a' hlt r hr r' hr'
  simp only [Option.mem_def, Option.map_eq_some'] at hr hr'
  obtain ⟨v, hv, rfl⟩ := hr
  obtain ⟨v', hv', rfl⟩ := hr'
  exact le_of_lt hlt

theorem merge_eq_locfMerge (prices : List PriceRow) (shares : List ShareRow)
    (hp : List.Pairwise (fun a c : PriceRow => a.1 < c.1) prices)
    (hs : List.Pairwise (fun a c : ShareRow => a.1 < c.1) shares) :
    merge prices shares = locfMerge prices shares := by
  cases prices with
  | nil => rfl
  | cons p ps =>
    unfold merge
    rw [dropna_ffill_eq_mergeAux]
    have hgt0 : ∀ x ∈ p :: ps, p.1 - 1 < x.1 := by
      intro x hx
      rcases List.mem_cons.mp hx with h | h
      · rw [h]; omega
      · have := (List.pairwise_cons.mp hp).1 x h
        omega
    have hnil : (alignedShares (p :: ps) shares).filter
        (fun s => decide (s.1 ≤ p.1 - 1)) = [] := by
      rw [List.filter_eq_nil_iff]
      intro s hsA
      have hsP : s.1 ∈ priceDates (p :: ps) := by
        have h := List.mem_filter.mp hsA
        simpa using h.2
      obtain ⟨q, hq, hqeq⟩ := List.mem_map.mp hsP
      have := hgt0 q hq
      simp only [decide_eq_true_eq]
      omega
    have hmain := mergeAux_eq_locf (p :: ps) shares hs (p :: ps) (p.1 - 1) none
      (fun x hx => hx) hp hgt0
      (fun x hx => Or.inr (List.mem_map.mpr ⟨x, hx, rfl⟩))
      (by rw [hnil]; rfl)
    rw [hmain]
    exact List.Sorted.insertionSort_eq (pairwise_locfMerge (p :: ps) shares hp)

/-- C1, counterexample to the claim as stated: pandas alignment keeps only
the shares observations whose dates occur in the price index, so with a
shares observation on day 4 that is not a trading day, the merged row for
day 5 carries 100 (the day-1 observation) while the most recent shares
observation on or before day 5 is 110. -/
theorem merge_C1_cex :
    merge pricesC1 sharesC1 = [(1, 10, 100), (5, 12, 100)] ∧
    locfShares sharesC1 5 = some 110 ∧
    ¬ ∀ r ∈ merge pricesC1 sharesC1, locfShares sharesC1 r.1 = some r.2.2 := by
  refine ⟨by decide, by decide, by decide⟩

/-- C1, amended: for strictly date-sorted inputs the merged series is the
forward-fill over the shares observations that fall on price dates: each
price date with at least one such prior observation becomes a row carrying
the most recent one, and price dates strictly before the first shares
observation produce no row. -/
theorem merge_C1_amended (prices : List PriceRow) (shares : List ShareRow)
    (hp : List.Pairwise (fun a c : PriceRow => a.1 < c.1) prices)
    (hs : List.Pairwise (fun a c : ShareRow => a.1 < c.1) shares) :
    merge prices shares = locfMerge prices shares ∧
    (∀ p ∈ prices, (∀ s ∈ shares, p.1 < s.1) →
      ∀ r ∈ merge prices shares, r.1 ≠ p.1) := by
  have hml := merge_eq_locfMerge prices shares hp hs
  refine ⟨hml, ?_⟩
  intro p hpm hall r hr
  rw [hml] at hr
  unfold locfMerge at hr
  rw [List.mem_filterMap] at hr
  obtain ⟨q, hq, hfq⟩ := hr
  obtain ⟨v, hv, rfl⟩ := Option.map_eq_some'.mp hfq
  intro hrp
  simp only at hrp
  unfold locfShares at hv
  obtain ⟨s, hsl, hsv⟩ := Option.map_eq_some'.mp hv
  have hsm : s ∈ (alignedShares prices shares).filter
      (fun t => decide (t.1 ≤ q.1)) := List.mem_of_getLast?_eq_some hsl
  have h1 := List.mem_filter.mp hsm
  have hs_sh : s ∈ shares := (List.mem_filter.mp h1.1).1
  have hled : s.1 ≤ q.1 := by simpa using h1.2
  have hlt := hall s hs_sh
  omega

theorem merge_C1_witness :
    (List.Pairwise (fun a c : PriceRow => a.1 < c.1) pricesC1 ∧
      List.Pairwise (fun a c : ShareRow => a.1 < c.1) sharesC1) ∧
    merge pricesC1 sharesC1 = locfMerge pricesC1 sharesC1 :=
  ⟨⟨by decide, by decide⟩,
    (merge_C1_amended pricesC1 sharesC1 (by decide) (by decide)).1⟩

/-- C6, counterexample to the claim as stated: with an empty shares series
and a non-empty price series the merge is empty, but the per-symbol report
is still generated (the symbol is only skipped when the price history is
empty), so "skip that symbol rather than emit a report" is false. -/
theorem report_C6_cex :
    merge [((0 : Int), (10 : Rat))] [] = [] ∧
    fetch_etf_data [((0 : Int), (10 : Rat))] [] 0 ≠ none := by
  refine ⟨by decide, by decide⟩

/-- C6, amended: with an empty shares series the merge stage returns an
empty series; the per-symbol report is nevertheless generated (not
skipped), with an empty flow list, zero summary values and no
shares-outstanding metadata; a symbol is skipped (`none`) exactly when its
price series is empty. -/
theorem report_C6_amended (prices : List PriceRow) (shares : List ShareRow)
    (now : Int) (hne : prices ≠ []) :
    merge prices [] = [] ∧
    fetch_etf_data prices [] now = some ⟨[], none, ⟨0, 0, 0, 0, 0⟩⟩ ∧
    fetch_etf_data [] shares now = none := by
  refine ⟨merge_empty_shares prices, ?_, rfl⟩
  unfold fetch_etf_data
  rw [if_neg (by simpa [List.isEmpty_iff] using hne), merge_empty_shares prices]
  rfl

theorem report_C6_witness :
    (([((0 : Int), (10 : Rat))] : List PriceRow) ≠ []) ∧
    (merge [((0 : Int), (10 : Rat))] [] = [] ∧
      fetch_etf_data [((0 : Int), (10 : Rat))] [] 5 = some ⟨[], none, ⟨0, 0, 0, 0, 0⟩⟩ ∧
      fetch_etf_data [] sharesC1 5 = none) :=
  ⟨by decide, report_C6_amended [((0 : Int), (10 : Rat))] sharesC1 5 (by decide)⟩
